import Mathlib

/-!
Verification of the identity and session core of the cloud-dashboard
repository, a shallow embedding of `src/lib/auth.ts`.

Conventions of the embedding:
* JavaScript `Map`s (the module-level `users` and `sessions` maps) are
  association lists with the `Map.get`/`Map.set` semantics (`mapGet`,
  `mapSet`; `set` on an existing key replaces in place, otherwise appends).
* `Date` values are `Nat` epoch milliseconds; JWT times are epoch seconds.
* The external libraries `bcryptjs` and `jose` are not part of the
  repository source; their behaviour is modelled from the spec
  (see `hashPassword`, `jwtVerifyModel`) with executable stand-ins for
  the cryptographic primitives.
-/

namespace AuthCore

/-! ## Decimal digit codec (used by the executable codec models) -/

/-- Little-endian base-10 digits of `n`, with explicit fuel so that the
definition is structural and kernel-reducible.  `natDigitsAux f n` is the
digit list of `n` whenever `n ≤ f`. -/
def natDigitsAux : Nat → Nat → List Nat
  | _, 0 => []
  | 0, _ + 1 => []
  | f + 1, n + 1 => ((n + 1) % 10) :: natDigitsAux f ((n + 1) / 10)

/-- Little-endian base-10 digits of `n` (empty for `0`). -/
def natDigits (n : Nat) : List Nat := natDigitsAux n n

/-- Value of a little-endian digit list. -/
def ofDigitsL : List Nat → Nat
  | [] => 0
  | d :: ds => d + 10 * ofDigitsL ds

theorem natDigitsAux_zero : ∀ f : Nat, natDigitsAux f 0 = []
  | 0 => rfl
  | _ + 1 => rfl

theorem ofDigitsL_natDigitsAux : ∀ (f n : Nat), n ≤ f → ofDigitsL (natDigitsAux f n) = n
  | f, 0, _ => by rw [natDigitsAux_zero f]; rfl
  | 0, n + 1, h => absurd h (by omega)
  | f + 1, n + 1, h => by
    have hd : (n + 1) / 10 < n + 1 := Nat.div_lt_self (Nat.succ_pos n) (by norm_num)
    have hle : (n + 1) / 10 ≤ f := by omega
    simp only [natDigitsAux, ofDigitsL, ofDigitsL_natDigitsAux f ((n + 1) / 10) hle]
    omega

theorem ofDigitsL_natDigits (n : Nat) : ofDigitsL (natDigits n) = n :=
  ofDigitsL_natDigitsAux n n (Nat.le_refl n)

theorem natDigitsAux_lt : ∀ (f n : Nat), ∀ d ∈ natDigitsAux f n, d < 10
  | f, 0, d, h => by rw [natDigitsAux_zero f] at h; simp at h
  | 0, _ + 1, d, h => by simp [natDigitsAux] at h
  | f + 1, n + 1, d, h => by
    simp only [natDigitsAux, List.mem_cons] at h
    rcases h with h | h
    · omega
    · exact natDigitsAux_lt f ((n + 1) / 10) d h

theorem natDigits_lt (n : Nat) : ∀ d ∈ natDigits n, d < 10 :=
  natDigitsAux_lt n n

/-- The character for a decimal digit. -/
def digChar (d : Nat) : Char := Char.ofNat (48 + d)

/-- Decimal-character encoding of a natural number, little-endian. -/
def natChars (n : Nat) : List Char := (natDigits n).map digChar

/-- Parse an all-digit character list back to the natural number it encodes
(little-endian); `none` when a non-digit occurs. -/
def decNat (l : List Char) : Option Nat :=
  if l.all Char.isDigit then some (ofDigitsL (l.map (fun c => c.toNat - 48))) else none

theorem digChar_isDigit {d : Nat} (h : d < 10) : (digChar d).isDigit = true := by
  interval_cases d <;> decide

theorem digChar_toNat {d : Nat} (h : d < 10) : (digChar d).toNat = 48 + d := by
  interval_cases d <;> decide

theorem digChar_ne {d : Nat} (h : d < 10) :
    digChar d ≠ '.' ∧ digChar d ≠ ';' ∧ digChar d ≠ '|' ∧ digChar d ≠ '!' := by
  interval_cases d <;> exact ⟨by decide, by decide, by decide, by decide⟩

theorem decNat_natChars (n : Nat) : decNat (natChars n) = some n := by
  have hall : (natChars n).all Char.isDigit = true := by
    rw [List.all_eq_true]
    intro c hc
    rcases List.mem_map.mp hc with ⟨d, hd, rfl⟩
    exact digChar_isDigit (natDigits_lt n d hd)
  have hmap : (natChars n).map (fun c => c.toNat - 48) = natDigits n := by
    rw [natChars, List.map_map]
    have : ∀ d ∈ natDigits n, (fun c => c.toNat - 48) (digChar d) = d := by
      intro d hd
      simp [digChar_toNat (natDigits_lt n d hd)]
    calc (natDigits n).map ((fun c => c.toNat - 48) ∘ digChar)
        = (natDigits n).map id := List.map_congr_left this
      _ = natDigits n := List.map_id _
  rw [decNat, if_pos hall, hmap, ofDigitsL_natDigits]

theorem mem_natChars {c : Char} {n : Nat} (h : c ∈ natChars n) :
    ∃ d, d < 10 ∧ c = digChar d := by
  rcases List.mem_map.mp h with ⟨d, hd, rfl⟩
  exact ⟨d, natDigits_lt n d hd, rfl⟩

/-! ## Splitting a character list on a separator -/

/-- Split a character list at every occurrence of `sep` (the semantics of
splitting used by compact token parsing); always returns at least one part. -/
def splitOnC (sep : Char) : List Char → List (List Char)
  | [] => [[]]
  | c :: r =>
    let ps := splitOnC sep r
    if c = sep then [] :: ps
    else (c :: (ps.head?.getD [])) :: ps.tail

theorem splitOnC_ne_nil (sep : Char) : ∀ l : List Char, splitOnC sep l ≠ []
  | [] => by simp [splitOnC]
  | c :: r => by
    simp only [splitOnC]
    split <;> simp

theorem splitOnC_noSep {sep : Char} : ∀ {l : List Char}, (∀ c ∈ l, c ≠ sep) →
    splitOnC sep l = [l]
  | [], _ => rfl
  | c :: r, h => by
    have hc : c ≠ sep := h c (List.mem_cons_self c r)
    have hr := splitOnC_noSep (fun x hx => h x (List.mem_cons_of_mem c hx))
    simp [splitOnC, hc, hr]

theorem splitOnC_append {sep : Char} : ∀ {A : List Char}, (∀ c ∈ A, c ≠ sep) →
    ∀ r : List Char, splitOnC sep (A ++ sep :: r) = A :: splitOnC sep r
  | [], _, r => by simp [splitOnC]
  | a :: A, h, r => by
    have ha : a ≠ sep := h a (List.mem_cons_self a A)
    have hA := splitOnC_append (fun x hx => h x (List.mem_cons_of_mem a hx)) r
    simp [splitOnC, if_neg ha, hA]

/-! ## Length-free string codec

`strEnc` encodes an arbitrary character list injectively over the alphabet
of decimal digits and a `;` terminator per character, so the result never
contains the structural separators `.` `|` `!` `$` or `@`.  `strDec` is its
executable left inverse. -/

def strEnc (s : List Char) : List Char :=
  s.foldr (fun c acc => natChars c.toNat ++ ';' :: acc) []

theorem strEnc_nil : strEnc [] = [] := rfl

theorem strEnc_cons (c : Char) (s : List Char) :
    strEnc (c :: s) = natChars c.toNat ++ ';' :: strEnc s := rfl

/-- Decode one encoded character: its digit block. -/
def decChar (ds : List Char) : Option Char :=
  match decNat ds with
  | some n => if n.isValidChar then some (Char.ofNat n) else none
  | none => none

def strDec (l : List Char) : Option (List Char) :=
  let parts := splitOnC ';' l
  if parts.getLast? = some ([] : List Char) then parts.dropLast.mapM decChar
  else none

theorem mem_strEnc {c : Char} : ∀ {s : List Char}, c ∈ strEnc s →
    c = ';' ∨ ∃ d, d < 10 ∧ c = digChar d := by
  intro s
  induction s with
  | nil => intro h; simp [strEnc_nil] at h
  | cons a s ih =>
    intro h
    rw [strEnc_cons] at h
    rcases List.mem_append.mp h with h | h
    · exact Or.inr (mem_natChars h)
    · rcases List.mem_cons.mp h with h | h
      · exact Or.inl h
      · exact ih h

theorem decChar_enc (c : Char) : decChar (natChars c.toNat) = some c := by
  have hv : c.toNat.isValidChar := c.valid
  simp [decChar, decNat_natChars, hv, Char.ofNat_toNat]

theorem splitOnC_strEnc : ∀ s : List Char,
    splitOnC ';' (strEnc s) = (s.map (fun (c : Char) => natChars c.toNat)) ++ [[]]
  | [] => rfl
  | c :: s => by
    have hfree : ∀ x ∈ natChars c.toNat, x ≠ ';' := by
      intro x hx
      rcases mem_natChars hx with ⟨d, hd, rfl⟩
      exact (digChar_ne hd).2.1
    rw [strEnc_cons, splitOnC_append hfree, splitOnC_strEnc s]
    simp

theorem mapM_decChar : ∀ s : List Char,
    (s.map (fun (c : Char) => natChars c.toNat)).mapM decChar = some s
  | [] => rfl
  | c :: s => by
    rw [List.map_cons, List.mapM_cons, decChar_enc, mapM_decChar s]
    rfl

theorem strDec_strEnc (s : List Char) : strDec (strEnc s) = some s := by
  rw [strDec, splitOnC_strEnc]
  have hlast : ((s.map (fun (c : Char) => natChars c.toNat)) ++ [[]]).getLast? =
      some ([] : List Char) := by
    simp [List.getLast?_append]
  have hdrop : ((s.map (fun (c : Char) => natChars c.toNat)) ++ [([] : List Char)]).dropLast =
      s.map (fun (c : Char) => natChars c.toNat) := by
    simp
  simp only [hlast, if_pos rfl, hdrop]
  exact mapM_decChar s

theorem strEnc_injective {a b : List Char} (h : strEnc a = strEnc b) : a = b := by
  have := strDec_strEnc a
  rw [h, strDec_strEnc b] at this
  exact (Option.some.injEq _ _).mp this.symm

/-! ## Data model (`src/types/index.ts`) -/

/-- `role: 'admin' | 'user'`. -/
inductive Role where
  | admin
  | user
deriving DecidableEq, Repr

structure NotificationPreferences where
  email : Bool
  sms : Bool
  billing : Bool
  maintenance : Bool
  security : Bool
deriving DecidableEq, Repr

structure UserProfile where
  company : Option String
  phone : Option String
  address : Option String
  timezone : Option String
  notificationPreferences : Option NotificationPreferences
deriving DecidableEq, Repr

/-- The user-facing `User` record of `src/types/index.ts`; it has no
password field.  `Date` fields are epoch milliseconds. -/
structure User where
  id : String
  email : String
  name : String
  role : Role
  createdAt : Nat
  updatedAt : Nat
  profile : Option UserProfile
deriving DecidableEq, Repr

/-- A record of the module-level `users` map: `User & { password: string }`.
The `password` field holds the bcrypt hash. -/
structure StoredUser where
  id : String
  email : String
  name : String
  role : Role
  createdAt : Nat
  updatedAt : Nat
  password : String
  profile : Option UserProfile
deriving DecidableEq, Repr

/-- `const { password: _, ...userWithoutPassword } = user` — the record
returned across the public interface keeps exactly the seven `User`
fields and drops the password hash. -/
def publicOf (u : StoredUser) : User :=
  { id := u.id, email := u.email, name := u.name, role := u.role,
    createdAt := u.createdAt, updatedAt := u.updatedAt, profile := u.profile }

/-! ## PasswordHasher

Modelled from the spec: `bcryptjs` is an external library, not part of
`src/`.  `hash` applies a salted one-way transformation with cost 12 and a
per-call salt embedded in the output (`$2a$12$<salt>$<digest>`), `verify`
recomputes the digest from the embedded salt and compares.  The digest
stands in for the bcrypt key-derivation: it is a salt-keyed, plaintext-
length-preserving character transformation, which is what the claims need
(determinism given the salt, hash ≠ plaintext, verify round-trip). -/

def bcryptDigest (pw : List Char) (salt : Nat) : List Char :=
  pw.map (fun c => Char.ofNat ((c.toNat + salt + 1) % 128))

/-- `bcrypt.hash(password, 12)` with explicit random salt. -/
def hashPassword (password : String) (salt : Nat) : String :=
  ⟨("$2a$12$".data ++ natChars salt) ++ '$' :: bcryptDigest password.data salt⟩

/-- `bcrypt.compare(password, hashedPassword)`. -/
def verifyPassword (password hashed : String) : Bool :=
  let l := hashed.data
  if l.take 7 = "$2a$12$".data then
    let rest := l.drop 7
    let ds := rest.takeWhile Char.isDigit
    match rest.dropWhile Char.isDigit with
    | '$' :: dg =>
      match decNat ds with
      | some s => dg = bcryptDigest password.data s
      | none => false
    | _ => false
  else false

theorem takeWhile_append_block {p : Char → Bool} :
    ∀ {A : List Char}, (∀ c ∈ A, p c = true) → ∀ {b : Char}, p b = false →
    ∀ r : List Char, (A ++ b :: r).takeWhile p = A ∧ (A ++ b :: r).dropWhile p = b :: r
  | [], _, b, hb, r => by simp [List.takeWhile_cons, List.dropWhile_cons, hb]
  | a :: A, h, b, hb, r => by
    have ha : p a = true := h a (List.mem_cons_self a A)
    have hA := takeWhile_append_block (fun x hx => h x (List.mem_cons_of_mem a hx)) hb r
    simp [List.takeWhile_cons, List.dropWhile_cons, ha, hA.1, hA.2]

theorem verifyPassword_hashPassword (password : String) (salt : Nat) :
    verifyPassword password (hashPassword password salt) = true := by
  have hdigits : ∀ c ∈ natChars salt, c.isDigit = true := by
    intro c hc
    rcases mem_natChars hc with ⟨d, hd, rfl⟩
    exact digChar_isDigit hd
  have hds : Char.isDigit '$' = false := by decide
  have hblock := takeWhile_append_block hdigits hds (bcryptDigest password.data salt)
  have hL : (hashPassword password salt).data =
      "$2a$12$".data ++ (natChars salt ++ '$' :: bcryptDigest password.data salt) := by
    simp [hashPassword]
  have htake : (hashPassword password salt).data.take 7 = "$2a$12$".data := by
    rw [hL]
    exact List.take_left' rfl
  have hdrop : (hashPassword password salt).data.drop 7 =
      natChars salt ++ '$' :: bcryptDigest password.data salt := by
    rw [hL]
    exact List.drop_left' rfl
  rw [verifyPassword]
  simp only [htake, hdrop, if_pos rfl, hblock.1, hblock.2, decNat_natChars]
  simp

/-- The stored hash is never the plaintext password: the hash output is
strictly longer than the password. -/
theorem hashPassword_ne (password : String) (salt : Nat) :
    hashPassword password salt ≠ password := by
  intro h
  have hlen : (hashPassword password salt).data.length = password.data.length := by rw [h]
  have hL : (hashPassword password salt).data =
      "$2a$12$".data ++ (natChars salt ++ '$' :: bcryptDigest password.data salt) := by
    simp [hashPassword]
  rw [hL] at hlen
  simp only [List.length_append, List.length_cons, bcryptDigest, List.length_map] at hlen
  omega

/-! ## Input validation (`validateEmail`, `validatePassword`) -/

/-- The JS `\s` class, restricted to its ASCII members (the model does not
carry the exotic Unicode space code points; no claim depends on them). -/
def isSpaceChar (c : Char) : Bool :=
  c = ' ' || c = '\t' || c = '\n' || c = '\r' || c.toNat = 11 || c.toNat = 12

/-- `validateEmail`: the language of `/^[^\s@]+@[^\s@]+\.[^\s@]+$/` —
exactly one `@`, nonempty space-free local part, and a space-free domain
with a `.` that has at least one character on each side. -/
def validateEmail (email : String) : Bool :=
  match splitOnC '@' email.data with
  | [a, r] =>
    !a.isEmpty && a.all (fun c => !isSpaceChar c) && r.all (fun c => !isSpaceChar c)
      && (r.drop 1).dropLast.contains '.'
  | _ => false

def lengthMsg : String := "Password must be at least 8 characters long"
def lowerMsg : String := "Password must contain at least one lowercase letter"
def upperMsg : String := "Password must contain at least one uppercase letter"
def numberMsg : String := "Password must contain at least one number"
def specialMsg : String := "Password must contain at least one special character (@$!%*?&)"

/-- The fixed special-character set `[@$!%*?&]` of `validatePassword`. -/
def specialChars : List Char := ['@', '$', '!', '%', '*', '?', '&']

/-- The `errors` array built by `validatePassword`, in push order. -/
def passwordErrors (p : String) : List String :=
  (if p.length < 8 then [lengthMsg] else []) ++
  (if p.data.any Char.isLower then [] else [lowerMsg]) ++
  (if p.data.any Char.isUpper then [] else [upperMsg]) ++
  (if p.data.any Char.isDigit then [] else [numberMsg]) ++
  (if p.data.any (fun c => specialChars.contains c) then [] else [specialMsg])

/-- `validatePassword(password) -> { valid, errors }`. -/
def validatePassword (p : String) : Bool × List String :=
  ((passwordErrors p).isEmpty, passwordErrors p)

/-! ## TokenCodec

Modelled from the spec: the `jose` JWT library is an external dependency,
not part of `src/`.  `signToken` produces the compact form
`header.payload.signature`; `jwtVerifyModel` checks, in the spec's order,
malformed structure → signature mismatch → expiry, and returns the typed
failure that `jose` raises as an exception.  The keyed signature `macTag`
stands in for HMAC-SHA256: it is deterministic, depends on the secret, and
is injective in the signed message (the computational tamper-evidence the
spec ascribes to the real MAC); times are epoch seconds. -/

/-- The `TokenPayload` interface of `src/lib/auth.ts` as passed to
`signToken` (the `exp` member is absent at signing time). -/
structure TokenPayload where
  userId : String
  email : String
  role : Role
deriving DecidableEq, Repr

/-- The claim set carried inside an issued token: the signing payload plus
the `iat`/`exp` claims that `jose` adds. -/
structure SignedPayload where
  userId : String
  email : String
  role : Role
  iat : Nat
  exp : Nat
deriving DecidableEq, Repr

/-- `.setExpirationTime('24h')`: the fixed validity window, in seconds. -/
def tokenValiditySeconds : Nat := 24 * 60 * 60

def signedPayloadOf (tp : TokenPayload) (iat : Nat) : SignedPayload :=
  { userId := tp.userId, email := tp.email, role := tp.role,
    iat := iat, exp := iat + tokenValiditySeconds }

def encRole : Role → List Char
  | .admin => ['a']
  | .user => ['u']

def decRole : List Char → Option Role
  | ['a'] => some .admin
  | ['u'] => some .user
  | _ => none

/-- Canonical encoding of the claim set (the model's base64url payload
segment): `|`-separated fields over the digit/`;`/role alphabet. -/
def encodePayload (pl : SignedPayload) : List Char :=
  strEnc pl.userId.data ++ '|' :: (strEnc pl.email.data ++ '|' ::
    (encRole pl.role ++ '|' :: (natChars pl.iat ++ '|' :: natChars pl.exp)))

def decodePayload (p : List Char) : Option SignedPayload :=
  match splitOnC '|' p with
  | [u, e, r, i, x] =>
    match strDec u, strDec e, decRole r, decNat i, decNat x with
    | some u, some e, some r, some i, some x =>
      some { userId := ⟨u⟩, email := ⟨e⟩, role := r, iat := i, exp := x }
    | _, _, _, _, _ => none
  | _ => none

/-- The constant protected-header segment (`{ alg: 'HS256' }`). -/
def headerChars : List Char := ['H', 'S', '2', '5', '6']

/-- Keyed signature over the signed message (model of HMAC-SHA256). -/
def macTag (secret : String) (msg : List Char) : List Char :=
  strEnc msg ++ '!' :: strEnc secret.data

theorem macTag_injective {secret : String} {m1 m2 : List Char}
    (h : macTag secret m1 = macTag secret m2) : m1 = m2 :=
  strEnc_injective (List.append_cancel_right h)

/-- `signToken(payload)` at issue time `iat` (epoch seconds). -/
def signToken (tp : TokenPayload) (secret : String) (iat : Nat) : String :=
  let p := encodePayload (signedPayloadOf tp iat)
  ⟨headerChars ++ '.' :: (p ++ '.' :: macTag secret (headerChars ++ '.' :: p))⟩

inductive VerifyError where
  | malformed
  | badSignature
  | expired
deriving DecidableEq, Repr

instance {ε α : Type} [DecidableEq ε] [DecidableEq α] : DecidableEq (Except ε α) :=
  fun x y =>
    match x, y with
    | .ok a, .ok b =>
      if h : a = b then .isTrue (by rw [h])
      else .isFalse (fun hc => h (by cases hc; rfl))
    | .ok _, .error _ => .isFalse (fun hc => Except.noConfusion hc)
    | .error _, .ok _ => .isFalse (fun hc => Except.noConfusion hc)
    | .error e, .error f =>
      if h : e = f then .isTrue (by rw [h])
      else .isFalse (fun hc => h (by cases hc; rfl))

/-- The checks `jwtVerify` performs once the compact form has exactly
three segments: known header, decodable claims, signature over
`header.payload`, then expiry. -/
def jwtVerifyParts (h p s : List Char) (secret : String) (now : Nat) :
    Except VerifyError SignedPayload :=
  if h = headerChars then
    match decodePayload p with
    | some pl =>
      if s = macTag secret (h ++ '.' :: p) then
        if now > pl.exp then .error .expired else .ok pl
      else .error .badSignature
    | none => .error .malformed
  else .error .malformed

/-- Modelled from the spec: `jose`'s `jwtVerify`, with the spec's failure
order — malformed structure, then signature mismatch, then
`now > expiresAt`.  Each `.error` is an exception `jwtVerify` throws. -/
def jwtVerifyModel (token : String) (secret : String) (now : Nat) :
    Except VerifyError SignedPayload :=
  match splitOnC '.' token.data with
  | [h, p, s] => jwtVerifyParts h p s secret now
  | _ => .error .malformed

/-- `verifyToken` of `src/lib/auth.ts`: every `jwtVerify` failure is caught
and collapsed to `null`. -/
def verifyToken (token : String) (secret : String) (now : Nat) : Option SignedPayload :=
  match jwtVerifyModel token secret now with
  | .ok pl => some pl
  | .error _ => none

/-! ### Codec round-trip facts -/

theorem mem_strEnc_sep {x : Char} {s : List Char} (hx : x ∈ strEnc s) :
    x ≠ '.' ∧ x ≠ '|' := by
  rcases mem_strEnc hx with h | ⟨d, hd, rfl⟩
  · subst h; exact ⟨by decide, by decide⟩
  · exact ⟨(digChar_ne hd).1, (digChar_ne hd).2.2.1⟩

theorem mem_natChars_sep {x : Char} {n : Nat} (hx : x ∈ natChars n) :
    x ≠ '.' ∧ x ≠ '|' := by
  rcases mem_natChars hx with ⟨d, hd, rfl⟩
  exact ⟨(digChar_ne hd).1, (digChar_ne hd).2.2.1⟩

theorem mem_encRole_sep {x : Char} {r : Role} (hx : x ∈ encRole r) :
    x ≠ '.' ∧ x ≠ '|' := by
  cases r <;> simp [encRole] at hx <;> subst hx <;> exact ⟨by decide, by decide⟩

theorem mem_encodePayload_ne_dot {x : Char} {pl : SignedPayload}
    (hx : x ∈ encodePayload pl) : x ≠ '.' := by
  rw [encodePayload] at hx
  simp only [List.mem_append, List.mem_cons] at hx
  rcases hx with h | h | h | h | h | h | h | h | h
  · exact (mem_strEnc_sep h).1
  · subst h; decide
  · exact (mem_strEnc_sep h).1
  · subst h; decide
  · exact (mem_encRole_sep h).1
  · subst h; decide
  · exact (mem_natChars_sep h).1
  · subst h; decide
  · exact (mem_natChars_sep h).1

theorem mem_macTag_ne_dot {x : Char} {secret : String} {msg : List Char}
    (hx : x ∈ macTag secret msg) : x ≠ '.' := by
  rw [macTag] at hx
  simp only [List.mem_append, List.mem_cons] at hx
  rcases hx with h | h | h
  · exact (mem_strEnc_sep h).1
  · subst h; decide
  · exact (mem_strEnc_sep h).1

theorem mem_headerChars_ne_dot {x : Char} (hx : x ∈ headerChars) : x ≠ '.' := by
  rw [headerChars] at hx
  fin_cases hx <;> decide

theorem decRole_encRole (r : Role) : decRole (encRole r) = some r := by
  cases r <;> rfl

theorem splitOnC_encodePayload (pl : SignedPayload) :
    splitOnC '|' (encodePayload pl) =
      [strEnc pl.userId.data, strEnc pl.email.data, encRole pl.role,
        natChars pl.iat, natChars pl.exp] := by
  rw [encodePayload]
  rw [splitOnC_append (fun x hx => (mem_strEnc_sep hx).2)]
  rw [splitOnC_append (fun x hx => (mem_strEnc_sep hx).2)]
  rw [splitOnC_append (fun x hx => (mem_encRole_sep hx).2)]
  rw [splitOnC_append (fun x hx => (mem_natChars_sep hx).2)]
  rw [splitOnC_noSep (fun x hx => (mem_natChars_sep hx).2)]

theorem decodePayload_encodePayload (pl : SignedPayload) :
    decodePayload (encodePayload pl) = some pl := by
  rw [decodePayload, splitOnC_encodePayload]
  simp only [strDec_strEnc, decRole_encRole, decNat_natChars]

theorem signToken_data (tp : TokenPayload) (secret : String) (iat : Nat) :
    (signToken tp secret iat).data =
      headerChars ++ '.' :: (encodePayload (signedPayloadOf tp iat) ++
        '.' :: macTag secret (headerChars ++ '.' :: encodePayload (signedPayloadOf tp iat))) :=
  rfl

theorem splitOnC_signToken (tp : TokenPayload) (secret : String) (iat : Nat) :
    splitOnC '.' (signToken tp secret iat).data =
      [headerChars, encodePayload (signedPayloadOf tp iat),
        macTag secret (headerChars ++ '.' :: encodePayload (signedPayloadOf tp iat))] := by
  rw [signToken_data]
  rw [splitOnC_append (fun x hx => mem_headerChars_ne_dot hx)]
  rw [splitOnC_append (fun x hx => mem_encodePayload_ne_dot hx)]
  rw [splitOnC_noSep (fun x hx => mem_macTag_ne_dot hx)]

/-- Verifying a canonically signed token: success until the embedded
expiry, the `Expired` failure after it. -/
theorem jwtVerifyModel_signToken (tp : TokenPayload) (secret : String) (iat now : Nat) :
    jwtVerifyModel (signToken tp secret iat) secret now =
      if now > iat + tokenValiditySeconds then .error .expired
      else .ok (signedPayloadOf tp iat) := by
  rw [jwtVerifyModel, splitOnC_signToken]
  show jwtVerifyParts _ _ _ _ _ = _
  rw [jwtVerifyParts]
  simp only [if_pos rfl, decodePayload_encodePayload]
  rfl

/-! ## The module-level stores

`users: Map<string, User & {password}>` and
`sessions: Map<string, {userId, expiresAt}>` as association lists with
JavaScript `Map` semantics: `set` replaces in place when the key exists,
otherwise appends; iteration follows insertion order. -/

def mapGet {α : Type} (m : List (String × α)) (k : String) : Option α :=
  (m.find? (fun p => p.1 = k)).map Prod.snd

def mapSet {α : Type} (m : List (String × α)) (k : String) (v : α) : List (String × α) :=
  match m with
  | [] => [(k, v)]
  | p :: r => if p.1 = k then (k, v) :: r else p :: mapSet r k v

/-- All keys of the association list are distinct (every state built by
`Map.set` from the empty map satisfies this). -/
def keysUnique {α : Type} : List (String × α) → Bool
  | [] => true
  | p :: r => r.all (fun q => !(p.1 = q.1)) && keysUnique r

/-- No two stored user records share an email (the spec's registry
invariant). -/
def emailsUnique : List (String × StoredUser) → Bool
  | [] => true
  | p :: r => r.all (fun q => !(p.2.email = q.2.email)) && emailsUnique r

/-- A `sessions` map entry: `{ userId: string; expiresAt: Date }`. -/
structure Session where
  userId : String
  expiresAt : Nat
deriving DecidableEq, Repr

/-- The module-level mutable state of `src/lib/auth.ts`. -/
structure AuthState where
  users : List (String × StoredUser)
  sessions : List (String × Session)
deriving DecidableEq, Repr

/-- `Array.from(users.values()).find(u => u.email === email)`. -/
def findByEmail (users : List (String × StoredUser)) (email : String) : Option StoredUser :=
  (users.map Prod.snd).find? (fun u => u.email = email)

/-- Result shape of `authenticateUser` / `registerUser`:
`{success, user?, token?, error?}`. -/
inductive AuthResult where
  | ok (user : User) (token : String)
  | err (error : String)
deriving DecidableEq, Repr

/-- Result shape of `updateUser`: `{success, user?, error?}`. -/
inductive UpdateResult where
  | ok (user : User)
  | err (error : String)
deriving DecidableEq, Repr

def sessionTtlMillis : Nat := 24 * 60 * 60 * 1000

/-- `authenticateUser(email, password)` (login).  `sessionId` is the fresh
identifier `generateSessionId()` produced, `now` the current epoch
milliseconds, and `secret` the JWT secret. -/
def authenticateUser (st : AuthState) (email password : String) (sessionId : String)
    (now : Nat) (secret : String) : AuthResult × AuthState :=
  match findByEmail st.users email with
  | none => (.err "Invalid credentials", st)
  | some foundUser =>
    if verifyPassword password foundUser.password then
      let tokenPayload : TokenPayload :=
        { userId := foundUser.id, email := foundUser.email, role := foundUser.role }
      let token := signToken tokenPayload secret (now / 1000)
      let newSession : Session := { userId := foundUser.id, expiresAt := now + sessionTtlMillis }
      (.ok (publicOf foundUser) token,
        { st with sessions := mapSet st.sessions sessionId newSession })
    else (.err "Invalid credentials", st)

/-- The `profile` object `registerUser` gives a new user. -/
def registerProfile : UserProfile :=
  { company := none, phone := none, address := none, timezone := none,
    notificationPreferences :=
      some { email := true, sms := false, billing := true,
             maintenance := false, security := true } }

/-- The `newUser` object `registerUser` builds. -/
def newUserRec (email password name newId : String) (salt now : Nat) : StoredUser :=
  { id := newId, email := email, name := name, role := .user,
    createdAt := now, updatedAt := now, password := hashPassword password salt,
    profile := some registerProfile }

/-- `registerUser(email, password, name)`.  `newId` is the generated
`user_<time>_<random>` identifier and `salt` the random salt drawn by
`bcrypt.hash`. -/
def registerUser (st : AuthState) (email password name : String) (newId : String)
    (salt : Nat) (now : Nat) (secret : String) : AuthResult × AuthState :=
  if !validateEmail email then (.err "Invalid email format", st)
  else if !(validatePassword password).1 then
    (.err (String.intercalate ", " (validatePassword password).2), st)
  else
    match findByEmail st.users email with
    | some _ => (.err "User already exists", st)
    | none =>
      let newUser : StoredUser := newUserRec email password name newId salt now
      let token := signToken { userId := newId, email := email, role := .user }
        secret (now / 1000)
      (.ok (publicOf newUser) token, { st with users := mapSet st.users newId newUser })

/-- `getUserById(userId)`. -/
def getUserById (st : AuthState) (userId : String) : Option User :=
  (mapGet st.users userId).map publicOf

/-- `getUserByToken(token)` — the authenticate operation. -/
def getUserByToken (st : AuthState) (token : String) (secret : String) (now : Nat) :
    Option User :=
  match verifyToken token secret now with
  | none => none
  | some payload => getUserById st payload.userId

/-- A `Partial<User>` argument of `updateUser`: each field optionally
present.  (`User` has no password member, so updates can never carry
password material.) -/
structure UserUpdates where
  id : Option String
  email : Option String
  name : Option String
  role : Option Role
  createdAt : Option Nat
  updatedAt : Option Nat
  profile : Option UserProfile
deriving DecidableEq, Repr

/-- `{ ...user, ...updates, id: userId, updatedAt: new Date() }`. -/
def mergeUpdate (u : StoredUser) (upd : UserUpdates) (userId : String) (now : Nat) :
    StoredUser :=
  { id := userId,
    email := upd.email.getD u.email,
    name := upd.name.getD u.name,
    role := upd.role.getD u.role,
    createdAt := upd.createdAt.getD u.createdAt,
    updatedAt := now,
    password := u.password,
    profile := (match upd.profile with | some p => some p | none => u.profile) }

/-- `updateUser(userId, updates)`. -/
def updateUser (st : AuthState) (userId : String) (upd : UserUpdates) (now : Nat) :
    UpdateResult × AuthState :=
  match mapGet st.users userId with
  | none => (.err "User not found", st)
  | some user =>
    let updatedUser := mergeUpdate user upd userId now
    (.ok (publicOf updatedUser), { st with users := mapSet st.users userId updatedUser })

/-- `cleanupExpiredSessions()`: delete every entry with `expiresAt < now`. -/
def cleanupExpiredSessions (sessions : List (String × Session)) (now : Nat) :
    List (String × Session) :=
  sessions.filter (fun p => !(p.2.expiresAt < now : Bool))

/-- The state after `initializeUsers()` seeds the demo admin and demo user
into the empty maps (`salt1`, `salt2` are the bcrypt salts drawn for the
two demo passwords, `t` the load time). -/
def seedState (salt1 salt2 t : Nat) : AuthState :=
  { users :=
      [("1",
        { id := "1", email := "admin@cloudpro.dev", name := "Admin User",
          role := .admin, createdAt := t, updatedAt := t,
          password := hashPassword "admin123!" salt1,
          profile := some
            { company := some "CloudPro Demo", phone := none, address := none,
              timezone := some "UTC",
              notificationPreferences :=
                some { email := true, sms := false, billing := true,
                       maintenance := true, security := true } } }),
       ("2",
        { id := "2", email := "user@demo.com", name := "Demo User",
          role := .user, createdAt := t, updatedAt := t,
          password := hashPassword "user123!" salt2,
          profile := some
            { company := some "Demo Company", phone := none, address := none,
              timezone := some "UTC",
              notificationPreferences :=
                some { email := true, sms := false, billing := true,
                       maintenance := false, security := true } } })],
    sessions := [] }

/-! ## Store lemmas (shared helpers) -/

theorem mapGet_mapSet_self {α : Type} : ∀ (m : List (String × α)) (k : String) (v : α),
    mapGet (mapSet m k v) k = some v
  | [], k, v => by simp [mapSet, mapGet, List.find?]
  | p :: r, k, v => by
    by_cases h : p.1 = k
    · simp [mapSet, h, mapGet, List.find?]
    · rw [mapSet, if_neg h, mapGet, List.find?_cons_of_neg _ (by simp [h])]
      exact mapGet_mapSet_self r k v

theorem mapSet_not_mem {α : Type} : ∀ {m : List (String × α)} {k : String},
    (∀ p ∈ m, p.1 ≠ k) → ∀ v : α, mapSet m k v = m ++ [(k, v)]
  | [], _, _, _ => rfl
  | p :: r, k, h, v => by
    have hp : p.1 ≠ k := h p (List.mem_cons_self p r)
    have hr := mapSet_not_mem (fun q hq => h q (List.mem_cons_of_mem p hq)) v
    simp [mapSet, hp, hr]

theorem mem_mapSet {α : Type} : ∀ {m : List (String × α)} {k : String} {v : α}
    {q : String × α}, q ∈ mapSet m k v → q ∈ m ∨ q = (k, v)
  | [], k, v, q, hq => by
    simp [mapSet] at hq
    exact Or.inr hq
  | p :: r, k, v, q, hq => by
    by_cases h : p.1 = k
    · simp only [mapSet, if_pos h, List.mem_cons] at hq
      rcases hq with hq | hq
      · exact Or.inr hq
      · exact Or.inl (List.mem_cons_of_mem p hq)
    · simp only [mapSet, if_neg h, List.mem_cons] at hq
      rcases hq with hq | hq
      · exact Or.inl (by simp [hq])
      · rcases mem_mapSet hq with h2 | h2
        · exact Or.inl (List.mem_cons_of_mem p h2)
        · exact Or.inr h2

theorem mapGet_mem {α : Type} {m : List (String × α)} {k : String} {v : α}
    (h : mapGet m k = some v) : (k, v) ∈ m := by
  rw [mapGet] at h
  rcases Option.map_eq_some'.mp h with ⟨q, hq, hsnd⟩
  have hmem := List.mem_of_find?_eq_some hq
  have hkey : q.1 = k := by
    have := List.find?_some hq
    simpa using this
  have : q = (k, v) := by
    cases q
    simp only at hkey hsnd
    simp [hkey, hsnd]
  rwa [this] at hmem

theorem findByEmail_eq_none {users : List (String × StoredUser)} {email : String} :
    findByEmail users email = none ↔ ∀ p ∈ users, p.2.email ≠ email := by
  rw [findByEmail, List.find?_eq_none]
  constructor
  · intro h p hp
    have := h p.2 (List.mem_map_of_mem Prod.snd hp)
    simpa using this
  · intro h u hu
    rcases List.mem_map.mp hu with ⟨p, hp, rfl⟩
    simpa using h p hp

theorem emailsUnique_cons {p : String × StoredUser} {r : List (String × StoredUser)} :
    emailsUnique (p :: r) = true ↔
      (∀ q ∈ r, p.2.email ≠ q.2.email) ∧ emailsUnique r = true := by
  simp [emailsUnique, List.all_eq_true]

theorem keysUnique_cons {α : Type} {p : String × α} {r : List (String × α)} :
    keysUnique (p :: r) = true ↔ (∀ q ∈ r, p.1 ≠ q.1) ∧ keysUnique r = true := by
  simp [keysUnique, List.all_eq_true]

theorem emailsUnique_eq_of_email : ∀ {m : List (String × StoredUser)},
    emailsUnique m = true → ∀ {p q : String × StoredUser}, p ∈ m → q ∈ m →
    p.2.email = q.2.email → p = q
  | [], _, p, q, hp, _, _ => absurd hp (List.not_mem_nil p)
  | a :: r, hm, p, q, hp, hq, he => by
    rcases emailsUnique_cons.mp hm with ⟨ha, hr⟩
    rcases List.mem_cons.mp hp with hp1 | hp1
    · rcases List.mem_cons.mp hq with hq1 | hq1
      · rw [hp1, hq1]
      · rw [hp1] at he ⊢
        exact absurd he (ha q hq1)
    · rcases List.mem_cons.mp hq with hq1 | hq1
      · rw [hq1] at he ⊢
        exact absurd he.symm (ha p hp1)
      · exact emailsUnique_eq_of_email hr hp1 hq1 he

/-- `Map.set` keeps the registry's email uniqueness whenever the written
record's email belongs to no entry other than the written key. -/
theorem emailsUnique_mapSet : ∀ {m : List (String × StoredUser)} {k : String} {v : StoredUser},
    keysUnique m = true → (∀ p ∈ m, p.2.email = v.email → p.1 = k) →
    emailsUnique m = true → emailsUnique (mapSet m k v) = true
  | [], k, v, _, _, _ => by simp [mapSet, emailsUnique]
  | p :: r, k, v, hk, hv, hm => by
    rcases keysUnique_cons.mp hk with ⟨hpk, hkr⟩
    rcases emailsUnique_cons.mp hm with ⟨hpe, her⟩
    by_cases h : p.1 = k
    · rw [mapSet, if_pos h]
      refine emailsUnique_cons.mpr ⟨?_, her⟩
      intro q hq heq
      have hqk : q.1 = k := hv q (List.mem_cons_of_mem p hq) heq.symm
      exact absurd (h.trans hqk.symm) (hpk q hq)
    · rw [mapSet, if_neg h]
      refine emailsUnique_cons.mpr ⟨?_, ?_⟩
      · intro q hq
        rcases mem_mapSet hq with h2 | h2
        · exact hpe q h2
        · subst h2
          intro heq
          exact h (hv p (List.mem_cons_self p r) heq)
      · exact emailsUnique_mapSet hkr
          (fun q hq => hv q (List.mem_cons_of_mem p hq)) her

/-! ## Claims -/

theorem mem_ite_cons_nil {c : Prop} [Decidable c] {m x : String} :
    (m ∈ if c then [x] else []) ↔ c ∧ m = x := by
  split <;> simp_all

theorem mem_ite_nil_cons {c : Prop} [Decidable c] {m x : String} :
    (m ∈ if c then [] else [x]) ↔ ¬c ∧ m = x := by
  split <;> simp_all

/-- C5.  `validatePassword` reports exactly the violated rules among the
five (length ≥ 8, lowercase, uppercase, digit, special character), all of
them rather than the first, and the two concrete behaviours the spec
cites. -/
theorem claim_C5_validatePolicy : ∀ p : String,
    ((lengthMsg ∈ (validatePassword p).2 ↔ p.length < 8) ∧
     (lowerMsg ∈ (validatePassword p).2 ↔ ¬ ∃ c ∈ p.data, c.isLower = true) ∧
     (upperMsg ∈ (validatePassword p).2 ↔ ¬ ∃ c ∈ p.data, c.isUpper = true) ∧
     (numberMsg ∈ (validatePassword p).2 ↔ ¬ ∃ c ∈ p.data, c.isDigit = true) ∧
     (specialMsg ∈ (validatePassword p).2 ↔ ¬ ∃ c ∈ p.data, c ∈ specialChars) ∧
     (∀ e ∈ (validatePassword p).2,
        e = lengthMsg ∨ e = lowerMsg ∨ e = upperMsg ∨ e = numberMsg ∨ e = specialMsg) ∧
     ((validatePassword p).1 = true ↔ (validatePassword p).2 = [])) ∧
    lengthMsg ∈ (validatePassword "short1").2 ∧
    (validatePassword "Str0ng!Pass").2 = [] := by
  intro p
  have hne : lengthMsg ≠ lowerMsg ∧ lengthMsg ≠ upperMsg ∧ lengthMsg ≠ numberMsg ∧
      lengthMsg ≠ specialMsg ∧ lowerMsg ≠ upperMsg ∧ lowerMsg ≠ numberMsg ∧
      lowerMsg ≠ specialMsg ∧ upperMsg ≠ numberMsg ∧ upperMsg ≠ specialMsg ∧
      numberMsg ≠ specialMsg := by
    refine ⟨?_, ?_, ?_, ?_, ?_, ?_, ?_, ?_, ?_, ?_⟩ <;> decide
  obtain ⟨h1, h2, h3, h4, h5, h6, h7, h8, h9, h10⟩ := hne
  refine ⟨⟨?_, ?_, ?_, ?_, ?_, ?_, ?_⟩, by decide, by decide⟩
  · simp only [validatePassword, passwordErrors, List.mem_append,
      mem_ite_cons_nil, mem_ite_nil_cons]
    simp [h1, h2, h3, h4]
  · simp only [validatePassword, passwordErrors, List.mem_append,
      mem_ite_cons_nil, mem_ite_nil_cons]
    simp [h1.symm, h5, h6, h7, List.any_eq_true]
  · simp only [validatePassword, passwordErrors, List.mem_append,
      mem_ite_cons_nil, mem_ite_nil_cons]
    simp [h2.symm, h5.symm, h8, h9, List.any_eq_true]
  · simp only [validatePassword, passwordErrors, List.mem_append,
      mem_ite_cons_nil, mem_ite_nil_cons]
    simp [h3.symm, h6.symm, h8.symm, h10, List.any_eq_true]
  · simp only [validatePassword, passwordErrors, List.mem_append,
      mem_ite_cons_nil, mem_ite_nil_cons]
    simp [h4.symm, h7.symm, h9.symm, h10.symm, List.any_eq_true, specialChars]
  · intro e he
    simp only [validatePassword, passwordErrors, List.mem_append,
      mem_ite_cons_nil, mem_ite_nil_cons] at he
    tauto
  · simp [validatePassword, List.isEmpty_iff]

/-- C5 witness: the two concrete behaviours, read off the claim theorem. -/
theorem claim_C5_witness :
    lengthMsg ∈ (validatePassword "short1").2 ∧ (validatePassword "Str0ng!Pass").2 = [] :=
  (claim_C5_validatePolicy "short1").2

/-- C2.  Whether the email is unknown or the stored hash does not verify,
login returns the identical `Invalid credentials` failure (and leaves the
state unchanged), so the two causes are indistinguishable to the caller. -/
theorem claim_C2_invalidCredentials :
    ∀ (st : AuthState) (email password sessionId : String) (now : Nat) (secret : String),
    (findByEmail st.users email = none ∨
      ∃ u, findByEmail st.users email = some u ∧ verifyPassword password u.password = false) →
    authenticateUser st email password sessionId now secret = (.err "Invalid credentials", st) := by
  intro st email password sessionId now secret h
  rcases h with h | ⟨u, hu, hv⟩
  · simp [authenticateUser, h]
  · simp [authenticateUser, hu, hv]

/-- C2 witness: the spec's two probes against the seeded state return the
same failure value. -/
theorem claim_C2_witness :
    authenticateUser (seedState 0 0 0) "nouser@x.com" "anything" "sid" 7 "s" =
      (.err "Invalid credentials", seedState 0 0 0) ∧
    authenticateUser (seedState 0 0 0) "user@demo.com" "wrongpass" "sid" 7 "s" =
      (.err "Invalid credentials", seedState 0 0 0) := by
  constructor
  · exact claim_C2_invalidCredentials _ _ _ _ _ _ (Or.inl (by decide))
  · exact claim_C2_invalidCredentials _ _ _ _ _ _ (Or.inr ⟨_, rfl, by decide⟩)

/-- C8.  `cleanupExpiredSessions` removes exactly the entries with
`expiresAt < now`: afterwards every remaining session satisfies
`expiresAt ≥ now`, and running it again with the same `now` removes
nothing further. -/
theorem claim_C8_sweep : ∀ (sessions : List (String × Session)) (now : Nat),
    (∀ e : String × Session,
      e ∈ cleanupExpiredSessions sessions now ↔ e ∈ sessions ∧ ¬ e.2.expiresAt < now) ∧
    (∀ e ∈ cleanupExpiredSessions sessions now, now ≤ e.2.expiresAt) ∧
    cleanupExpiredSessions (cleanupExpiredSessions sessions now) now =
      cleanupExpiredSessions sessions now := by
  intro sessions now
  refine ⟨?_, ?_, ?_⟩
  · intro e
    simp [cleanupExpiredSessions, List.mem_filter]
  · intro e he
    have := (List.mem_filter.mp he).2
    simp only [Bool.not_eq_eq_eq_not, Bool.not_true, decide_eq_false_iff_not, Nat.not_lt] at this
    exact this
  · simp [cleanupExpiredSessions, List.filter_filter]

/-- C8 witness: a sweep over a two-session store at a concrete instant. -/
theorem claim_C8_witness :
    cleanupExpiredSessions [("a", ⟨"1", 5⟩), ("b", ⟨"2", 10⟩)] 7 = [("b", ⟨"2", 10⟩)] ∧
    7 ≤ (("b", (⟨"2", 10⟩ : Session)) : String × Session).2.expiresAt ∧
    cleanupExpiredSessions (cleanupExpiredSessions [("a", ⟨"1", 5⟩), ("b", ⟨"2", 10⟩)] 7) 7 =
      cleanupExpiredSessions [("a", ⟨"1", 5⟩), ("b", ⟨"2", 10⟩)] 7 :=
  ⟨by decide,
   (claim_C8_sweep [("a", ⟨"1", 5⟩), ("b", ⟨"2", 10⟩)] 7).2.1 _ (by decide),
   (claim_C8_sweep [("a", ⟨"1", 5⟩), ("b", ⟨"2", 10⟩)] 7).2.2⟩

/-- C10.  Every user a successful `registerUser` creates carries role
`user`, both in the returned record and in the stored record, so no admin
identity can be created through `register`. -/
theorem claim_C10_registerRole :
    ∀ (st : AuthState) (email password name newId : String) (salt now : Nat)
      (secret : String) (u : User) (tok : String) (st2 : AuthState),
    registerUser st email password name newId salt now secret = (.ok u tok, st2) →
    u.role = .user ∧ ∃ r, mapGet st2.users newId = some r ∧ r.role = .user := by
  intro st email password name newId salt now secret u tok st2 h
  rw [registerUser] at h
  split at h
  · exact absurd (congrArg Prod.fst h) (by simp)
  · split at h
    · exact absurd (congrArg Prod.fst h) (by simp)
    · split at h
      · exact absurd (congrArg Prod.fst h) (by simp)
      · simp only [Prod.mk.injEq, AuthResult.ok.injEq] at h
        obtain ⟨⟨hu, _⟩, hst⟩ := h
        subst hst
        refine ⟨by rw [← hu]; rfl, ?_⟩
        exact ⟨_, mapGet_mapSet_self _ _ _, rfl⟩

/-- C10 witness: a concrete successful registration stores role `user`. -/
theorem claim_C10_witness :
    ∃ r, mapGet (registerUser (seedState 0 0 0) "new@x.com" "Passw0rd!" "New" "nid" 0 7
        "s").2.users "nid" = some r ∧ r.role = .user := by
  obtain ⟨_, r, hr, hrole⟩ :=
    claim_C10_registerRole (seedState 0 0 0) "new@x.com" "Passw0rd!" "New" "nid" 0 7 "s"
      _ _ _ rfl
  exact ⟨r, hr, hrole⟩

/-- C9.  `registerUser` never touches the session store (on any outcome),
while a successful login adds exactly one session entry, keyed by the
fresh session id, expiring at `now + 24h`, appended after the untouched
existing entries. -/
theorem claim_C9_sessionEffects :
    (∀ (st : AuthState) (email password name newId : String) (salt now : Nat)
       (secret : String) (out : AuthResult) (st2 : AuthState),
      registerUser st email password name newId salt now secret = (out, st2) →
      st2.sessions = st.sessions) ∧
    (∀ (st : AuthState) (email password sessionId : String) (now : Nat) (secret : String)
       (u : User) (tok : String) (st2 : AuthState),
      (∀ p ∈ st.sessions, p.1 ≠ sessionId) →
      authenticateUser st email password sessionId now secret = (.ok u tok, st2) →
      st2.sessions = st.sessions ++
        [(sessionId, { userId := u.id, expiresAt := now + sessionTtlMillis })]) := by
  constructor
  · intro st email password name newId salt now secret out st2 h
    rw [registerUser] at h
    split at h
    · cases h; rfl
    · split at h
      · cases h; rfl
      · split at h
        · cases h; rfl
        · cases h; rfl
  · intro st email password sessionId now secret u tok st2 hfresh h
    cases hfind : findByEmail st.users email with
    | none =>
      rw [authenticateUser, hfind] at h
      exact absurd (congrArg Prod.fst h) (by simp)
    | some foundUser =>
      rw [authenticateUser, hfind] at h
      by_cases hv : verifyPassword password foundUser.password = true
      · simp only [hv, if_true, Prod.mk.injEq, AuthResult.ok.injEq] at h
        obtain ⟨⟨hu, _⟩, hst⟩ := h
        rw [← hst]
        simp only []
        rw [mapSet_not_mem hfresh, ← hu]
        rfl
      · simp only [hv, if_false] at h
        exact absurd (congrArg Prod.fst h) (by simp)

/-- C9 witness: a concrete register leaves sessions empty; a concrete
successful login appends exactly the 24-hour session entry. -/
theorem claim_C9_witness :
    (registerUser (seedState 0 0 0) "new@x.com" "Passw0rd!" "New" "nid" 0 7 "s").2.sessions =
      (seedState 0 0 0).sessions ∧
    (authenticateUser (seedState 0 0 0) "user@demo.com" "user123!" "sid" 7 "s").2.sessions =
      (seedState 0 0 0).sessions ++ [("sid", { userId := "2", expiresAt := 7 + sessionTtlMillis })] := by
  constructor
  · exact claim_C9_sessionEffects.1 (seedState 0 0 0) "new@x.com" "Passw0rd!" "New" "nid"
      0 7 "s" _ _ rfl
  · exact claim_C9_sessionEffects.2 (seedState 0 0 0) "user@demo.com" "user123!" "sid" 7 "s"
      _ _ _ (by intro p hp; simp [seedState] at hp) rfl

/-- C7.  Every user record the public interface returns — from register,
login, `getUserById`, `getUserByToken`, and update — is exactly
`publicOf` of a stored record: the seven-field `User` shape with the
password hash stripped. -/
theorem claim_C7_publicShape :
    (∀ (st : AuthState) (email password name newId : String) (salt now : Nat)
       (secret : String) (u : User) (tok : String) (st2 : AuthState),
      registerUser st email password name newId salt now secret = (.ok u tok, st2) →
      ∃ r, mapGet st2.users newId = some r ∧ u = publicOf r) ∧
    (∀ (st : AuthState) (email password sessionId : String) (now : Nat) (secret : String)
       (u : User) (tok : String) (st2 : AuthState),
      authenticateUser st email password sessionId now secret = (.ok u tok, st2) →
      ∃ r, findByEmail st.users email = some r ∧ u = publicOf r) ∧
    (∀ (st : AuthState) (userId : String) (u : User),
      getUserById st userId = some u →
      ∃ r, mapGet st.users userId = some r ∧ u = publicOf r) ∧
    (∀ (st : AuthState) (token secret : String) (now : Nat) (u : User),
      getUserByToken st token secret now = some u → ∃ r, u = publicOf r) ∧
    (∀ (st : AuthState) (userId : String) (upd : UserUpdates) (now : Nat)
       (u : User) (st2 : AuthState),
      updateUser st userId upd now = (.ok u, st2) →
      ∃ r, mapGet st2.users userId = some r ∧ u = publicOf r) := by
  have hById : ∀ (st : AuthState) (userId : String) (u : User),
      getUserById st userId = some u →
      ∃ r, mapGet st.users userId = some r ∧ u = publicOf r := by
    intro st userId u h
    rw [getUserById] at h
    rcases Option.map_eq_some'.mp h with ⟨r, hr, hu⟩
    exact ⟨r, hr, hu.symm⟩
  refine ⟨?_, ?_, hById, ?_, ?_⟩
  · intro st email password name newId salt now secret u tok st2 h
    rw [registerUser] at h
    split at h
    · exact absurd (congrArg Prod.fst h) (by simp)
    · split at h
      · exact absurd (congrArg Prod.fst h) (by simp)
      · split at h
        · exact absurd (congrArg Prod.fst h) (by simp)
        · simp only [Prod.mk.injEq, AuthResult.ok.injEq] at h
          obtain ⟨⟨hu, _⟩, hst⟩ := h
          rw [← hst]
          exact ⟨_, mapGet_mapSet_self _ _ _, hu.symm⟩
  · intro st email password sessionId now secret u tok st2 h
    cases hfind : findByEmail st.users email with
    | none =>
      rw [authenticateUser, hfind] at h
      exact absurd (congrArg Prod.fst h) (by simp)
    | some foundUser =>
      rw [authenticateUser, hfind] at h
      by_cases hv : verifyPassword password foundUser.password = true
      · simp only [hv, if_true, Prod.mk.injEq, AuthResult.ok.injEq] at h
        exact ⟨foundUser, rfl, h.1.1.symm⟩
      · simp only [hv, if_false] at h
        exact absurd (congrArg Prod.fst h) (by simp)
  · intro st token secret now u h
    rw [getUserByToken] at h
    split at h
    · exact absurd h (by simp)
    · rcases hById st _ u h with ⟨r, _, hu⟩
      exact ⟨r, hu⟩
  · intro st userId upd now u st2 h
    cases hget : mapGet st.users userId with
    | none =>
      rw [updateUser, hget] at h
      exact absurd (congrArg Prod.fst h) (by simp)
    | some user =>
      rw [updateUser, hget] at h
      simp only [Prod.mk.injEq, UpdateResult.ok.injEq] at h
      obtain ⟨hu, hst⟩ := h
      rw [← hst]
      exact ⟨_, mapGet_mapSet_self _ _ _, hu.symm⟩

/-- C7 witness: the record a concrete lookup returns is `publicOf` of a
stored record. -/
theorem claim_C7_witness :
    ∃ r, mapGet (seedState 0 0 0).users "1" = some r ∧
      getUserById (seedState 0 0 0) "1" = some (publicOf r) := by
  obtain ⟨r, hr, hu⟩ := claim_C7_publicShape.2.2.1 (seedState 0 0 0) "1" _ rfl
  refine ⟨r, hr, ?_⟩
  rw [← hu]
  rfl

/-- C6.  After a successful registration, the record found by email stores
a bcrypt hash that differs from the plaintext password, and verifying the
plaintext against the stored hash succeeds. -/
theorem claim_C6_hashRoundTrip :
    ∀ (st : AuthState) (email password name newId : String) (salt now : Nat)
      (secret : String) (u : User) (tok : String) (st2 : AuthState),
    (∀ p ∈ st.users, p.1 ≠ newId) →
    registerUser st email password name newId salt now secret = (.ok u tok, st2) →
    ∃ r, findByEmail st2.users email = some r ∧
      r.password = hashPassword password salt ∧
      r.password ≠ password ∧
      verifyPassword password r.password = true := by
  intro st email password name newId salt now secret u tok st2 hfresh h
  by_cases h1 : validateEmail email = true
  · by_cases h2 : (validatePassword password).1 = true
    · cases hfind : findByEmail st.users email with
      | some w =>
        rw [registerUser] at h
        simp [h1, h2, hfind] at h
      | none =>
        rw [registerUser] at h
        simp only [h1, h2, hfind, Bool.not_true, Bool.false_eq_true, if_false,
          Prod.mk.injEq, AuthResult.ok.injEq] at h
        obtain ⟨⟨_, _⟩, hst⟩ := h
        rw [← hst]
        refine ⟨newUserRec email password name newId salt now, ?_, rfl,
          hashPassword_ne password salt, verifyPassword_hashPassword password salt⟩
        have hmapset := mapSet_not_mem hfresh (newUserRec email password name newId salt now)
        simp only [hmapset]
        rw [findByEmail, List.map_append, List.find?_append]
        have hnone : (st.users.map Prod.snd).find? (fun v => v.email = email) = none := hfind
        rw [hnone]
        simp [newUserRec]
    · rw [registerUser] at h
      simp [h1, h2] at h
  · rw [registerUser] at h
    simp [h1] at h

/-- C6 witness: a concrete successful registration, checked end to end. -/
theorem claim_C6_witness :
    ∃ r, findByEmail (registerUser (seedState 0 0 0) "new@x.com" "Passw0rd!" "New" "nid"
        0 7 "s").2.users "new@x.com" = some r ∧
      r.password ≠ "Passw0rd!" ∧ verifyPassword "Passw0rd!" r.password = true := by
  obtain ⟨r, hr, _, hne, hv⟩ :=
    claim_C6_hashRoundTrip (seedState 0 0 0) "new@x.com" "Passw0rd!" "New" "nid" 0 7 "s"
      _ _ _ (by intro p hp; fin_cases hp <;> decide) rfl
  exact ⟨r, hr, hne, hv⟩

/-- C1 counterexample.  The seeded state has unique emails; `updateUser`
on user `"2"` with `{ email: "admin@cloudpro.dev" }` succeeds (returning
the updated record) and leaves the registry with two records sharing that
email — so "every mutating operation (register, update) preserves the
property that no two stored User records share an email" is false of the
code. -/
theorem claim_C1_counterexample :
    emailsUnique (seedState 0 0 0).users = true ∧
    (updateUser (seedState 0 0 0) "2"
      { id := none, email := some "admin@cloudpro.dev", name := none, role := none,
        createdAt := none, updatedAt := none, profile := none } 5).1 =
      UpdateResult.ok
        { id := "2", email := "admin@cloudpro.dev", name := "Demo User", role := .user,
          createdAt := 0, updatedAt := 5,
          profile := some
            { company := some "Demo Company", phone := none, address := none,
              timezone := some "UTC",
              notificationPreferences := some
                { email := true, sms := false, billing := true,
                  maintenance := false, security := true } } } ∧
    emailsUnique (updateUser (seedState 0 0 0) "2"
      { id := none, email := some "admin@cloudpro.dev", name := none, role := none,
        createdAt := none, updatedAt := none, profile := none } 5).2.users = false :=
  ⟨by decide, by decide, by decide⟩

/-- C1 (amended).  Register enforces email uniqueness: when validation
passes and a stored record carries literally the same email, it fails with
the duplicate error and leaves the state unchanged, and any register
outcome preserves email uniqueness.  Update, which re-checks nothing, is
uniqueness-preserving only when the updated email is not the email of a
record stored under a different key. -/
theorem claim_C1_amended :
    (∀ (st : AuthState) (email password name newId : String) (salt now : Nat)
       (secret : String) (w : StoredUser),
      validateEmail email = true → (validatePassword password).1 = true →
      findByEmail st.users email = some w →
      registerUser st email password name newId salt now secret =
        (.err "User already exists", st)) ∧
    (∀ (st : AuthState) (email password name newId : String) (salt now : Nat)
       (secret : String) (out : AuthResult) (st2 : AuthState),
      keysUnique st.users = true → emailsUnique st.users = true →
      registerUser st email password name newId salt now secret = (out, st2) →
      emailsUnique st2.users = true) ∧
    (∀ (st : AuthState) (userId : String) (upd : UserUpdates) (now : Nat)
       (out : UpdateResult) (st2 : AuthState),
      keysUnique st.users = true → emailsUnique st.users = true →
      (∀ e, upd.email = some e → ∀ p ∈ st.users, p.2.email = e → p.1 = userId) →
      updateUser st userId upd now = (out, st2) →
      emailsUnique st2.users = true) := by
  refine ⟨?_, ?_, ?_⟩
  · intro st email password name newId salt now secret w h1 h2 hdup
    simp [registerUser, h1, h2, hdup]
  · intro st email password name newId salt now secret out st2 hk he h
    by_cases h1 : validateEmail email = true
    · by_cases h2 : (validatePassword password).1 = true
      · cases hfind : findByEmail st.users email with
        | some w =>
          rw [registerUser] at h
          simp only [h1, h2, hfind, Bool.not_true, Bool.false_eq_true, if_false] at h
          cases h
          exact he
        | none =>
          rw [registerUser] at h
          simp only [h1, h2, hfind, Bool.not_true, Bool.false_eq_true, if_false,
            Prod.mk.injEq] at h
          obtain ⟨_, hst⟩ := h
          rw [← hst]
          refine emailsUnique_mapSet hk ?_ he
          intro p hp heq
          have hne : p.2.email ≠ email := findByEmail_eq_none.mp hfind p hp
          exact absurd heq hne
      · rw [registerUser] at h
        simp only [h1, h2, Bool.not_false, Bool.not_true, Bool.false_eq_true, if_false,
          if_true, Prod.mk.injEq] at h
        obtain ⟨_, hst⟩ := h
        rw [← hst]
        exact he
    · rw [registerUser] at h
      simp only [h1, Bool.not_false, if_true, Prod.mk.injEq] at h
      obtain ⟨_, hst⟩ := h
      rw [← hst]
      exact he
  · intro st userId upd now out st2 hk he hcond h
    cases hget : mapGet st.users userId with
    | none =>
      rw [updateUser, hget] at h
      cases h
      exact he
    | some user =>
      rw [updateUser, hget] at h
      simp only [Prod.mk.injEq] at h
      obtain ⟨_, hst⟩ := h
      rw [← hst]
      refine emailsUnique_mapSet hk ?_ he
      intro p hp heq
      cases hupd : upd.email with
      | some e =>
        refine hcond e hupd p hp ?_
        rw [heq]
        simp [mergeUpdate, hupd]
      | none =>
        have hmerge : (mergeUpdate user upd userId now).email = user.email := by
          simp [mergeUpdate, hupd]
        rw [hmerge] at heq
        have hpair : p = (userId, user) :=
          emailsUnique_eq_of_email he hp (mapGet_mem hget) heq
        rw [hpair]

/-- C1 witness: the three amended clauses at concrete inputs — a duplicate
registration against the seeded state fails and changes nothing, a fresh
registration keeps emails unique, and a name-only update keeps emails
unique. -/
theorem claim_C1_witness :
    registerUser (seedState 0 0 0) "admin@cloudpro.dev" "Passw0rd!" "X" "nid" 0 7 "s" =
      (.err "User already exists", seedState 0 0 0) ∧
    emailsUnique (registerUser (seedState 0 0 0) "new@x.com" "Passw0rd!" "New" "nid" 0 7
      "s").2.users = true ∧
    emailsUnique (updateUser (seedState 0 0 0) "2"
      { id := none, email := none, name := some "Renamed", role := none,
        createdAt := none, updatedAt := none, profile := none } 5).2.users = true := by
  refine ⟨?_, ?_, ?_⟩
  · exact claim_C1_amended.1 (seedState 0 0 0) "admin@cloudpro.dev" "Passw0rd!" "X" "nid"
      0 7 "s" _ (by decide) (by decide) rfl
  · exact claim_C1_amended.2.1 (seedState 0 0 0) "new@x.com" "Passw0rd!" "New" "nid" 0 7 "s"
      _ _ (by decide) (by decide) rfl
  · exact claim_C1_amended.2.2 (seedState 0 0 0) "2"
      { id := none, email := none, name := some "Renamed", role := none,
        createdAt := none, updatedAt := none, profile := none } 5 _ _
      (by decide) (by decide) (by intro e he; simp at he) rfl

/-- C4.  A token signed at `T` carries `exp = T + 24h`; `verifyToken`
accepts it at `T + 1` second returning the signed claims, `authenticate`
(`getUserByToken`) returns the signing user, and at `T + 24h + 1` the
verification fails as expired (`jose` raises `JWTExpired`; the wrapper
returns null). -/
theorem claim_C4_validityWindow :
    ∀ (st : AuthState) (tp : TokenPayload) (secret : String) (T : Nat) (u : StoredUser),
    mapGet st.users tp.userId = some u →
    (signedPayloadOf tp T).exp = T + tokenValiditySeconds ∧
    verifyToken (signToken tp secret T) secret (T + 1) = some (signedPayloadOf tp T) ∧
    getUserByToken st (signToken tp secret T) secret (T + 1) = some (publicOf u) ∧
    jwtVerifyModel (signToken tp secret T) secret (T + tokenValiditySeconds + 1) =
      .error .expired ∧
    getUserByToken st (signToken tp secret T) secret (T + tokenValiditySeconds + 1) =
      none := by
  intro st tp secret T u hu
  have hok : jwtVerifyModel (signToken tp secret T) secret (T + 1) =
      .ok (signedPayloadOf tp T) := by
    rw [jwtVerifyModel_signToken]
    rw [if_neg (by simp [tokenValiditySeconds])]
  have hexp : jwtVerifyModel (signToken tp secret T) secret (T + tokenValiditySeconds + 1) =
      .error .expired := by
    rw [jwtVerifyModel_signToken]
    rw [if_pos (by omega)]
  have hvt : verifyToken (signToken tp secret T) secret (T + 1) =
      some (signedPayloadOf tp T) := by
    rw [verifyToken, hok]
  refine ⟨rfl, hvt, ?_, hexp, ?_⟩
  · rw [getUserByToken, hvt]
    simp only [signedPayloadOf]
    rw [getUserById, hu]
    rfl
  · rw [getUserByToken, verifyToken, hexp]

/-- C4 witness: a concrete token for the seeded admin, at `T = 100`. -/
theorem claim_C4_witness :
    verifyToken (signToken { userId := "1", email := "admin@cloudpro.dev", role := .admin }
        "s" 100) "s" 101 =
      some (signedPayloadOf { userId := "1", email := "admin@cloudpro.dev", role := .admin }
        100) ∧
    jwtVerifyModel (signToken { userId := "1", email := "admin@cloudpro.dev", role := .admin }
        "s" 100) "s" (100 + tokenValiditySeconds + 1) = .error .expired := by
  obtain ⟨_, hvt, _, hexp, _⟩ :=
    claim_C4_validityWindow (seedState 0 0 0)
      { userId := "1", email := "admin@cloudpro.dev", role := .admin } "s" 100 _ rfl
  exact ⟨hvt, hexp⟩

end AuthCore

namespace AuthCore

def setCharAt (s : String) (i : Nat) (c : Char) : String := ⟨s.data.set i c⟩

theorem jwtVerifyModel_two (t : String) (secret : String) (now : Nat) (a b : List Char)
    (h : splitOnC '.' t.data = [a, b]) : jwtVerifyModel t secret now = .error .malformed := by
  unfold jwtVerifyModel
  rw [h]

theorem jwtVerifyModel_four (t : String) (secret : String) (now : Nat) (a b d e : List Char)
    (h : splitOnC '.' t.data = [a, b, d, e]) :
    jwtVerifyModel t secret now = .error .malformed := by
  unfold jwtVerifyModel
  rw [h]

theorem jwtVerifyModel_headerMismatch (t : String) (secret : String) (now : Nat)
    (a b d : List Char) (ha : a ≠ headerChars) (h : splitOnC '.' t.data = [a, b, d]) :
    jwtVerifyModel t secret now = .error .malformed := by
  unfold jwtVerifyModel
  rw [h]
  show jwtVerifyParts a b d secret now = _
  rw [jwtVerifyParts, if_neg ha]

theorem jwtVerifyModel_sigMismatch (t : String) (secret : String) (now : Nat)
    (p s : List Char) (h : splitOnC '.' t.data = [headerChars, p, s])
    (hs : s ≠ macTag secret (headerChars ++ '.' :: p)) :
    jwtVerifyModel t secret now = .error .malformed ∨
    jwtVerifyModel t secret now = .error .badSignature := by
  unfold jwtVerifyModel
  rw [h]
  show jwtVerifyParts headerChars p s secret now = _ ∨ jwtVerifyParts headerChars p s secret now = _
  rw [jwtVerifyParts, if_pos rfl]
  cases hdec : decodePayload p with
  | none => left; rfl
  | some pl => right; exact if_neg hs


theorem jwtVerify_flip (secret : String) (P S : List Char) (now : Nat)
    (hP : ∀ x ∈ P, x ≠ '.') (hS : ∀ x ∈ S, x ≠ '.')
    (hsig : S = macTag secret (headerChars ++ '.' :: P))
    (i : Nat) (c : Char)
    (hi : i < (headerChars ++ '.' :: (P ++ '.' :: S)).length)
    (hc : c ≠ (headerChars ++ '.' :: (P ++ '.' :: S)).get ⟨i, hi⟩) :
    jwtVerifyModel ⟨(headerChars ++ '.' :: (P ++ '.' :: S)).set i c⟩ secret now =
      .error .malformed ∨
    jwtVerifyModel ⟨(headerChars ++ '.' :: (P ++ '.' :: S)).set i c⟩ secret now =
      .error .badSignature := by
  have hHlen : headerChars.length = 5 := rfl
  have hLne : (headerChars ++ '.' :: (P ++ '.' :: S)).set i c ≠
      headerChars ++ '.' :: (P ++ '.' :: S) := by
    intro heq
    apply hc
    have h1 : ((headerChars ++ '.' :: (P ++ '.' :: S)).set i c)[i]? = some c :=
      List.getElem?_set_self hi
    rw [heq, List.getElem?_eq_getElem hi] at h1
    rw [List.get_eq_getElem]
    exact ((Option.some.injEq _ _).mp h1).symm
  have hiTotal : i < P.length + S.length + 7 := by
    have h2 := hi
    simp only [List.length_append, List.length_cons, hHlen] at h2
    omega
  by_cases hA : i < 5
  · -- position inside the header segment
    have hiH : i < headerChars.length := by rw [hHlen]; exact hA
    have hset : (headerChars ++ '.' :: (P ++ '.' :: S)).set i c =
        headerChars.set i c ++ '.' :: (P ++ '.' :: S) := List.set_append_left i c hiH
    by_cases hdot : c = '.'
    · subst hdot
      left
      refine jwtVerifyModel_four _ secret now (headerChars.take i)
        (headerChars.drop (i + 1)) P S ?_
      show splitOnC '.' ((headerChars ++ '.' :: (P ++ '.' :: S)).set i '.') = _
      rw [hset, List.set_eq_take_cons_drop '.' hiH, List.append_assoc, List.cons_append]
      rw [splitOnC_append (fun x hx => mem_headerChars_ne_dot (List.take_subset _ _ hx))]
      rw [splitOnC_append (fun x hx => mem_headerChars_ne_dot (List.drop_subset _ _ hx))]
      rw [splitOnC_append hP, splitOnC_noSep hS]
    · have hne : headerChars.set i c ≠ headerChars := by
        intro heq
        apply hLne
        rw [hset, heq]
      have hfree : ∀ x ∈ headerChars.set i c, x ≠ '.' := by
        intro x hx
        rcases List.mem_or_eq_of_mem_set hx with h1 | h1
        · exact mem_headerChars_ne_dot h1
        · rw [h1]; exact hdot
      left
      refine jwtVerifyModel_headerMismatch _ secret now (headerChars.set i c) P S hne ?_
      show splitOnC '.' ((headerChars ++ '.' :: (P ++ '.' :: S)).set i c) = _
      rw [hset, splitOnC_append hfree, splitOnC_append hP, splitOnC_noSep hS]
  · by_cases hB : i = 5
    · -- position of the first separator
      subst hB
      have hset : (headerChars ++ '.' :: (P ++ '.' :: S)).set 5 c =
          headerChars ++ c :: (P ++ '.' :: S) := by
        rw [List.set_append_right 5 c (Nat.le_of_eq hHlen), hHlen, Nat.sub_self,
          List.set_cons_zero]
      have hdot : c ≠ '.' := by
        intro h
        apply hLne
        rw [hset, h]
      have hfree : ∀ x ∈ headerChars ++ c :: P, x ≠ '.' := by
        intro x hx
        rcases List.mem_append.mp hx with h1 | h1
        · exact mem_headerChars_ne_dot h1
        · rcases List.mem_cons.mp h1 with h2 | h2
          · rw [h2]; exact hdot
          · exact hP x h2
      left
      refine jwtVerifyModel_two _ secret now (headerChars ++ c :: P) S ?_
      show splitOnC '.' ((headerChars ++ '.' :: (P ++ '.' :: S)).set 5 c) = _
      rw [hset]
      rw [show headerChars ++ c :: (P ++ '.' :: S) = (headerChars ++ c :: P) ++ '.' :: S by
        rw [List.append_assoc, List.cons_append]]
      rw [splitOnC_append hfree, splitOnC_noSep hS]
    · by_cases hC : i < 6 + P.length
      · -- position inside the payload segment
        obtain ⟨j, rfl, hj⟩ : ∃ j, i = 6 + j ∧ j < P.length := ⟨i - 6, by omega, by omega⟩
        have hle : headerChars.length ≤ 6 + j := by rw [hHlen]; omega
        have harith : 6 + j - 5 = j + 1 := by omega
        have hset : (headerChars ++ '.' :: (P ++ '.' :: S)).set (6 + j) c =
            headerChars ++ '.' :: (P.set j c ++ '.' :: S) := by
          rw [List.set_append_right _ c hle, hHlen, harith, List.set_cons_succ,
            List.set_append_left _ c hj]
        by_cases hdot : c = '.'
        · subst hdot
          left
          refine jwtVerifyModel_four _ secret now headerChars (P.take j)
            (P.drop (j + 1)) S ?_
          show splitOnC '.' ((headerChars ++ '.' :: (P ++ '.' :: S)).set (6 + j) '.') = _
          rw [hset, List.set_eq_take_cons_drop '.' hj, List.append_assoc, List.cons_append]
          rw [splitOnC_append (fun x hx => mem_headerChars_ne_dot hx)]
          rw [splitOnC_append (fun x hx => hP x (List.take_subset _ _ hx))]
          rw [splitOnC_append (fun x hx => hP x (List.drop_subset _ _ hx))]
          rw [splitOnC_noSep hS]
        · have hPne : P.set j c ≠ P := by
            intro heq
            apply hLne
            rw [hset, heq]
          have hfree : ∀ x ∈ P.set j c, x ≠ '.' := by
            intro x hx
            rcases List.mem_or_eq_of_mem_set hx with h1 | h1
            · exact hP x h1
            · rw [h1]; exact hdot
          have hsplit : splitOnC '.' ((headerChars ++ '.' :: (P ++ '.' :: S)).set (6 + j) c) =
              [headerChars, P.set j c, S] := by
            rw [hset, splitOnC_append (fun x hx => mem_headerChars_ne_dot hx),
              splitOnC_append hfree, splitOnC_noSep hS]
          refine jwtVerifyModel_sigMismatch _ secret now (P.set j c) S hsplit ?_
          rw [hsig]
          intro heq
          have h2 := List.append_cancel_left (macTag_injective heq)
          injection h2 with _ h3
          exact hPne h3.symm
      · by_cases hD : i = 6 + P.length
        · -- position of the second separator
          subst hD
          have hle : headerChars.length ≤ 6 + P.length := by rw [hHlen]; omega
          have harith : 6 + P.length - 5 = P.length + 1 := by omega
          have hset : (headerChars ++ '.' :: (P ++ '.' :: S)).set (6 + P.length) c =
              headerChars ++ '.' :: (P ++ c :: S) := by
            rw [List.set_append_right _ c hle, hHlen, harith, List.set_cons_succ,
              List.set_append_right _ c (Nat.le_refl _), Nat.sub_self, List.set_cons_zero]
          have hdot : c ≠ '.' := by
            intro h
            apply hLne
            rw [hset, h]
          have hfree : ∀ x ∈ P ++ c :: S, x ≠ '.' := by
            intro x hx
            rcases List.mem_append.mp hx with h1 | h1
            · exact hP x h1
            · rcases List.mem_cons.mp h1 with h2 | h2
              · rw [h2]; exact hdot
              · exact hS x h2
          left
          refine jwtVerifyModel_two _ secret now headerChars (P ++ c :: S) ?_
          show splitOnC '.' ((headerChars ++ '.' :: (P ++ '.' :: S)).set (6 + P.length) c) = _
          rw [hset, splitOnC_append (fun x hx => mem_headerChars_ne_dot hx),
            splitOnC_noSep hfree]
        · -- position inside the signature segment
          obtain ⟨j, rfl, hj⟩ : ∃ j, i = 7 + P.length + j ∧ j < S.length :=
            ⟨i - 7 - P.length, by omega, by omega⟩
          have hle : headerChars.length ≤ 7 + P.length + j := by rw [hHlen]; omega
          have harith : 7 + P.length + j - 5 = (P.length + j + 1) + 1 := by omega
          have harith2 : P.length + j + 1 - P.length = j + 1 := by omega
          have hset : (headerChars ++ '.' :: (P ++ '.' :: S)).set (7 + P.length + j) c =
              headerChars ++ '.' :: (P ++ '.' :: S.set j c) := by
            rw [List.set_append_right _ c hle, hHlen, harith, List.set_cons_succ,
              List.set_append_right _ c (by omega : P.length ≤ P.length + j + 1),
              harith2, List.set_cons_succ]
          have hSne : S.set j c ≠ S := by
            intro heq
            apply hLne
            rw [hset, heq]
          by_cases hdot : c = '.'
          · subst hdot
            left
            refine jwtVerifyModel_four _ secret now headerChars P (S.take j)
              (S.drop (j + 1)) ?_
            show splitOnC '.'
              ((headerChars ++ '.' :: (P ++ '.' :: S)).set (7 + P.length + j) '.') = _
            rw [hset, List.set_eq_take_cons_drop '.' hj]
            rw [splitOnC_append (fun x hx => mem_headerChars_ne_dot hx), splitOnC_append hP]
            rw [splitOnC_append (fun x hx => hS x (List.take_subset _ _ hx))]
            rw [splitOnC_noSep (fun x hx => hS x (List.drop_subset _ _ hx))]
          · have hfree : ∀ x ∈ S.set j c, x ≠ '.' := by
              intro x hx
              rcases List.mem_or_eq_of_mem_set hx with h1 | h1
              · exact hS x h1
              · rw [h1]; exact hdot
            have hsplit : splitOnC '.'
                ((headerChars ++ '.' :: (P ++ '.' :: S)).set (7 + P.length + j) c) =
                [headerChars, P, S.set j c] := by
              rw [hset, splitOnC_append (fun x hx => mem_headerChars_ne_dot hx),
                splitOnC_append hP, splitOnC_noSep hfree]
            refine jwtVerifyModel_sigMismatch _ secret now P (S.set j c) hsplit ?_
            rw [← hsig]
            exact hSne


/-- C3 counterexample.  The repository's `verifyToken` returns the same
`null` for a structurally malformed token and for a tampered
(bad-signature) token — the caller cannot distinguish the failure kinds,
refuting "token verification distinguishes its failure kinds". -/
theorem claim_C3_counterexample :
    jwtVerifyModel "garbage" "s" 200 = .error .malformed ∧
    jwtVerifyModel (setCharAt (signToken
      { userId := "1", email := "a@b.c", role := .user } "s" 100) 158 '0') "s" 200 =
      .error .badSignature ∧
    verifyToken "garbage" "s" 200 = none ∧
    verifyToken (setCharAt (signToken
      { userId := "1", email := "a@b.c", role := .user } "s" 100) 158 '0') "s" 200 =
      none :=
  ⟨by decide, by decide, by decide, by decide⟩

/-- C3 (amended).  The underlying verification distinguishes Malformed /
BadSignature / Expired, but `verifyToken` collapses every failure to
`null`; changing any single character of a validly signed token makes
verification fail — internally as Malformed or BadSignature, never as a
silently accepted different claim — and `verifyToken` returns `null`. -/
theorem claim_C3_collapsedFailures :
    (∀ (token secret : String) (now : Nat) (e : VerifyError),
      jwtVerifyModel token secret now = .error e → verifyToken token secret now = none) ∧
    (∀ (tp : TokenPayload) (secret : String) (iat now : Nat) (i : Nat) (c : Char)
       (hi : i < (signToken tp secret iat).data.length),
      c ≠ (signToken tp secret iat).data.get ⟨i, hi⟩ →
      (jwtVerifyModel (setCharAt (signToken tp secret iat) i c) secret now =
          .error .malformed ∨
        jwtVerifyModel (setCharAt (signToken tp secret iat) i c) secret now =
          .error .badSignature) ∧
      verifyToken (setCharAt (signToken tp secret iat) i c) secret now = none) := by
  have hcollapse : ∀ (token secret : String) (now : Nat) (e : VerifyError),
      jwtVerifyModel token secret now = .error e → verifyToken token secret now = none := by
    intro token secret now e h
    rw [verifyToken, h]
  refine ⟨hcollapse, ?_⟩
  intro tp secret iat now i c hi hc
  have hflip := jwtVerify_flip secret (encodePayload (signedPayloadOf tp iat))
    (macTag secret (headerChars ++ '.' :: encodePayload (signedPayloadOf tp iat))) now
    (fun x hx => mem_encodePayload_ne_dot hx) (fun x hx => mem_macTag_ne_dot hx) rfl
    i c hi hc
  rcases hflip with h | h
  · exact ⟨Or.inl h, hcollapse _ _ _ _ h⟩
  · exact ⟨Or.inr h, hcollapse _ _ _ _ h⟩

set_option maxRecDepth 8192 in
/-- C3 witness: a concrete single-character change inside the payload of a
validly signed token is rejected and collapses to `null`. -/
theorem claim_C3_witness :
    (jwtVerifyModel (setCharAt (signToken
        { userId := "1", email := "a@b.c", role := .user } "s" 100) 10 'Z') "s" 150 =
        .error .malformed ∨
      jwtVerifyModel (setCharAt (signToken
        { userId := "1", email := "a@b.c", role := .user } "s" 100) 10 'Z') "s" 150 =
        .error .badSignature) ∧
    verifyToken (setCharAt (signToken
      { userId := "1", email := "a@b.c", role := .user } "s" 100) 10 'Z') "s" 150 = none :=
  claim_C3_collapsedFailures.2 { userId := "1", email := "a@b.c", role := .user } "s" 100
    150 10 'Z' (by decide) (by decide)

end AuthCore
